import Mathlib

/-!
Verification of the proof-of-work blockchain simulator (`src/main.rs`).

The Rust source is shallowly embedded: machine integers become `Nat`
(with explicit `% 2 ^ 32` where u32 wraparound matters, and Nat's
truncated subtraction mirroring `u64::saturating_sub`), byte strings
become `List Nat` with every element a byte value, fallible or possibly
diverging code (the unbounded mining loop) returns `Option` and takes an
explicit fuel argument, and every call to `SystemTime::now()` becomes an
explicit clock argument, so a nondeterministic wall clock is modelled by
quantifying over clock functions.

SHA-256 and the `serde_json` canonical encodings are implemented
concretely and executably, so digest-level facts can be settled by
kernel evaluation.  String bytes are modelled via `Char.toNat`, which
agrees with UTF-8 on the ASCII strings the program uses.
-/

namespace BitcoinMiner

/-! ## SHA-256 over byte lists -/

/-- Truncation to a 32-bit word. -/
def w32 (n : Nat) : Nat := n % 4294967296

/-- Right rotation of a 32-bit word by `k` bits. -/
def rotr (k x : Nat) : Nat := w32 ((x >>> k) ||| (x <<< (32 - k)))

/-- Logical right shift. -/
def shr (k x : Nat) : Nat := x >>> k

/-- Bitwise complement of a 32-bit word. -/
def wnot (x : Nat) : Nat := x ^^^ 4294967295

/-- SHA-256 big sigma 0. -/
def bsig0 (x : Nat) : Nat := rotr 2 x ^^^ rotr 13 x ^^^ rotr 22 x

/-- SHA-256 big sigma 1. -/
def bsig1 (x : Nat) : Nat := rotr 6 x ^^^ rotr 11 x ^^^ rotr 25 x

/-- SHA-256 small sigma 0. -/
def ssig0 (x : Nat) : Nat := rotr 7 x ^^^ rotr 18 x ^^^ shr 3 x

/-- SHA-256 small sigma 1. -/
def ssig1 (x : Nat) : Nat := rotr 17 x ^^^ rotr 19 x ^^^ shr 10 x

/-- SHA-256 choice function. -/
def ch (x y z : Nat) : Nat := (x &&& y) ^^^ (wnot x &&& z)

/-- SHA-256 majority function. -/
def maj (x y z : Nat) : Nat := (x &&& y) ^^^ (x &&& z) ^^^ (y &&& z)

/-- The 64 SHA-256 round constants. -/
def sha256K : List Nat :=
  [1116352408, 1899447441, 3049323471, 3921009573, 961987163, 1508970993,
   2453635748, 2870763221, 3624381080, 310598401, 607225278, 1426881987,
   1925078388, 2162078206, 2614888103, 3248222580, 3835390401, 4022224774,
   264347078, 604807628, 770255983, 1249150122, 1555081692, 1996064986,
   2554220882, 2821834349, 2952996808, 3210313671, 3336571891, 3584528711,
   113926993, 338241895, 666307205, 773529912, 1294757372, 1396182291,
   1695183700, 1986661051, 2177026350, 2456956037, 2730485921, 2820302411,
   3259730800, 3345764771, 3516065817, 3600352804, 4094571909, 275423344,
   430227734, 506948616, 659060556, 883997877, 958139571, 1322822218,
   1537002063, 1747873779, 1955562222, 2024104815, 2227730452, 2361852424,
   2428436474, 2756734187, 3204031479, 3329325298]

/-- The SHA-256 initial hash state. -/
def sha256H0 : List Nat :=
  [1779033703, 3144134277, 1013904242, 2773480762, 1359893119, 2600822924,
   528734635, 1541459225]

/-- Parse `n` big-endian 32-bit words from a byte list. -/
def bytesToWords : Nat → List Nat → List Nat
  | 0, _ => []
  | n + 1, b0 :: b1 :: b2 :: b3 :: rest =>
      (b0 * 16777216 + b1 * 65536 + b2 * 256 + b3) :: bytesToWords n rest
  | _ + 1, _ => []

/-- Extend a message-schedule word list by `n` further words. -/
def extendLoop : Nat → List Nat → List Nat
  | 0, w => w
  | n + 1, w =>
      let k := w.length
      let nw := w32 (ssig1 (w.getD (k - 2) 0) + w.getD (k - 7) 0 +
                     ssig0 (w.getD (k - 15) 0) + w.getD (k - 16) 0)
      extendLoop n (w ++ [nw])

/-- One SHA-256 compression: run the rounds over the paired constant and
schedule words, starting from working state `st` (eight words). -/
def compressLoop : List (Nat × Nat) → List Nat → List Nat
  | [], st => st
  | (kc, wv) :: rest, st =>
      let a := st.getD 0 0
      let b := st.getD 1 0
      let c := st.getD 2 0
      let d := st.getD 3 0
      let e := st.getD 4 0
      let f := st.getD 5 0
      let g := st.getD 6 0
      let h := st.getD 7 0
      let t1 := w32 (h + bsig1 e + ch e f g + kc + wv)
      let t2 := w32 (bsig0 a + maj a b c)
      compressLoop rest [w32 (t1 + t2), a, b, c, w32 (d + t1), e, f, g]

/-- Process one 64-byte chunk, updating the eight-word hash state. -/
def sha256Compress (hs chunk : List Nat) : List Nat :=
  let w := extendLoop 48 (bytesToWords 16 chunk)
  let st := compressLoop (sha256K.zip w) hs
  List.zipWith (fun x y => w32 (x + y)) hs st

/-- SHA-256 padding: append `0x80`, zero bytes to 56 mod 64, and the
64-bit big-endian bit length. -/
def padMessage (msg : List Nat) : List Nat :=
  let len := msg.length
  let bitLen := 8 * len
  let zeros := (119 - len % 64) % 64
  msg ++ [128] ++ List.replicate zeros 0 ++
    [bitLen >>> 56 &&& 255, bitLen >>> 48 &&& 255, bitLen >>> 40 &&& 255, bitLen >>> 32 &&& 255,
     bitLen >>> 24 &&& 255, bitLen >>> 16 &&& 255, bitLen >>> 8 &&& 255, bitLen &&& 255]

/-- Fold the compression function over successive 64-byte chunks;
`fuel` bounds the number of chunks (the padded length always suffices). -/
def sha256Loop : Nat → List Nat → List Nat → List Nat
  | 0, hs, _ => hs
  | fuel + 1, hs, msg =>
      match msg with
      | [] => hs
      | _ => sha256Loop fuel (sha256Compress hs (msg.take 64)) (msg.drop 64)

/-- Serialize a 32-bit word as four big-endian bytes. -/
def wordBytes (x : Nat) : List Nat :=
  [x / 16777216 % 256, x / 65536 % 256, x / 256 % 256, x % 256]

/-- SHA-256 of a byte list, as a 32-byte list. -/
def sha256 (msg : List Nat) : List Nat :=
  let padded := padMessage msg
  ((sha256Loop padded.length sha256H0 padded).map wordBytes).flatten

/-! ## serde_json canonical encodings

`serde_json::to_string` output, byte for byte, for the three serialized
shapes of the program: compact separators, struct fields in declaration
order, `[u8; 32]` as a JSON array of numbers, strings escaped as
serde_json does (the program only ever hashes ASCII content). -/

/-- serde_json escaping of one character (by code point). -/
def jsonEscapeChar (c : Nat) : List Nat :=
  if c = 34 then [92, 34]
  else if c = 92 then [92, 92]
  else if c = 8 then [92, 98]
  else if c = 9 then [92, 116]
  else if c = 10 then [92, 110]
  else if c = 12 then [92, 102]
  else if c = 13 then [92, 114]
  else if c < 32 then
    [92, 117, 48, 48, if c / 16 < 10 then 48 + c / 16 else 87 + c / 16,
     if c % 16 < 10 then 48 + c % 16 else 87 + c % 16]
  else [c]

/-- Bytes of a JSON string literal, quotes included. -/
def jsonString (s : String) : List Nat :=
  [34] ++ ((s.data.map Char.toNat).map jsonEscapeChar).flatten ++ [34]

/-- Decimal ASCII bytes of a natural number. -/
def natBytes (n : Nat) : List Nat := (Nat.toDigits 10 n).map Char.toNat

/-- Bytes of a JSON array given its already-encoded elements. -/
def jsonArray (elems : List (List Nat)) : List Nat :=
  [91] ++ List.intercalate ([44]) elems ++ [93]

/-- Bytes of one `"key":value` object member. -/
def jsonMember (key : String) (v : List Nat) : List Nat :=
  jsonString key ++ [58] ++ v

/-- Bytes of a JSON object given its already-encoded members. -/
def jsonObject (members : List (List Nat)) : List Nat :=
  [123] ++ List.intercalate ([44]) members ++ [125]

/-! ## Transaction -/

/-- `Transaction` (src/main.rs:7-13): id, input addresses, output
addresses, and a u64 amount. -/
structure Transaction where
  id : String
  inputs : List String
  outputs : List String
  amount : Nat
deriving DecidableEq

/-- `serde_json::to_string` of a `Transaction`, as bytes. -/
def encodeTransaction (t : Transaction) : List Nat :=
  jsonObject
    [jsonMember ("id") (jsonString t.id),
     jsonMember ("inputs") (jsonArray (t.inputs.map jsonString)),
     jsonMember ("outputs") (jsonArray (t.outputs.map jsonString)),
     jsonMember ("amount") (natBytes t.amount)]

/-- `Transaction::hash` (src/main.rs:25-30): single SHA-256 of the
serde_json encoding. -/
def Transaction.hash (t : Transaction) : List Nat := sha256 (encodeTransaction t)

/-! ## BlockHeader -/

/-- `BlockHeader` (src/main.rs:46-53).  `previous_hash` and
`merkle_root` are 32-byte digests. -/
structure BlockHeader where
  version : Nat
  previous_hash : List Nat
  merkle_root : List Nat
  timestamp : Nat
  difficulty_target : Nat
  nonce : Nat
deriving DecidableEq

/-- `serde_json::to_string` of a `BlockHeader`, as bytes. -/
def encodeHeader (h : BlockHeader) : List Nat :=
  jsonObject
    [jsonMember ("version") (natBytes h.version),
     jsonMember ("previous_hash") (jsonArray (h.previous_hash.map natBytes)),
     jsonMember ("merkle_root") (jsonArray (h.merkle_root.map natBytes)),
     jsonMember ("timestamp") (natBytes h.timestamp),
     jsonMember ("difficulty_target") (natBytes h.difficulty_target),
     jsonMember ("nonce") (natBytes h.nonce)]

/-- `BlockHeader::new` (src/main.rs:56-75): nonce starts at 0 and the
timestamp is the current time, passed here as the explicit `now`. -/
def BlockHeader.new (version : Nat) (previous_hash merkle_root : List Nat)
    (difficulty_target : Nat) (now : Nat) : BlockHeader :=
  { version := version, previous_hash := previous_hash, merkle_root := merkle_root,
    timestamp := now, difficulty_target := difficulty_target, nonce := 0 }

/-- `BlockHeader::hash` (src/main.rs:77-87): double SHA-256 — SHA-256 of
the serde_json encoding, then SHA-256 of that 32-byte result. -/
def BlockHeader.hash (h : BlockHeader) : List Nat := sha256 (sha256 (encodeHeader h))

/-! ## Block -/

/-- `Block` (src/main.rs:106-110). -/
structure Block where
  header : BlockHeader
  transactions : List Transaction
  height : Nat
deriving DecidableEq

/-- One level of `calculate_merkle_root`'s `while` body
(src/main.rs:142-160): `chunks(2)` pairs consecutive digests, hashing
`L‖R`, and a trailing odd digest is paired with itself. -/
def merkleStep : List (List Nat) → List (List Nat)
  | a :: b :: rest => sha256 (a ++ b) :: merkleStep rest
  | [a] => [sha256 (a ++ a)]
  | [] => []

/-- The `while hashes.len() > 1` loop of `calculate_merkle_root`, with
explicit fuel (the initial level length always suffices). -/
def merkleLoop : Nat → List (List Nat) → List (List Nat)
  | 0, hs => hs
  | fuel + 1, hs =>
      match hs with
      | _ :: _ :: _ => merkleLoop fuel (merkleStep hs)
      | _ => hs

/-- `Block::calculate_merkle_root` (src/main.rs:135-163): all-zero for
an empty list, else reduce the per-transaction digests level by level. -/
def Block.calculate_merkle_root (transactions : List Transaction) : List Nat :=
  if transactions.isEmpty then List.replicate 32 0
  else
    let hashes := transactions.map Transaction.hash
    (merkleLoop hashes.length hashes).headD (List.replicate 32 0)

/-- `Block::new` (src/main.rs:113-128): the Merkle root is computed once
here, from the transaction list, before the header is built. -/
def Block.new (version : Nat) (previous_hash : List Nat)
    (transactions : List Transaction) (difficulty_target height now : Nat) : Block :=
  { header := BlockHeader.new version previous_hash
      (Block.calculate_merkle_root transactions) difficulty_target now,
    transactions := transactions, height := height }

/-- `Block::hash` (src/main.rs:130-132): the header digest. -/
def Block.hash (b : Block) : List Nat := b.header.hash

/-! ## Miner -/

/-- `Miner` (src/main.rs:305-307). -/
structure Miner where
  difficulty_target : Nat
deriving DecidableEq

/-- `Miner::new` (src/main.rs:310-312). -/
def Miner.new (difficulty_target : Nat) : Miner := { difficulty_target := difficulty_target }

/-- `u8::leading_zeros` for a byte value. -/
def u8LeadingZeros (b : Nat) : Nat :=
  if 128 ≤ b then 0 else if 64 ≤ b then 1 else if 32 ≤ b then 2 else if 16 ≤ b then 3
  else if 8 ≤ b then 4 else if 4 ≤ b then 5 else if 2 ≤ b then 6 else if 1 ≤ b then 7
  else 8

/-- `Miner::count_leading_zero_bits` (src/main.rs:377-388): each
all-zero byte contributes 8; the first non-zero byte contributes its own
leading-zero count and ends the scan.  (The Rust method ignores
`&self`.) -/
def Miner.count_leading_zero_bits : List Nat → Nat
  | [] => 0
  | b :: rest => if b = 0 then 8 + Miner.count_leading_zero_bits rest else u8LeadingZeros b

/-- `Miner::meets_difficulty_target` (src/main.rs:371-375). -/
def Miner.meets_difficulty_target (m : Miner) (h : List Nat) : Bool :=
  decide (m.difficulty_target ≤ Miner.count_leading_zero_bits h)

/-- `Miner::validate_block` (src/main.rs:390-393): recompute the header
digest and re-apply the search predicate. -/
def Miner.validate_block (m : Miner) (b : Block) : Bool :=
  m.meets_difficulty_target b.hash

/-- The nonce/timestamp update of `mine_block`'s loop
(src/main.rs:353-362): at `u32::MAX` refresh the timestamp to the
current time (the clock at step `k`) and reset the nonce to 0, else
increment the nonce. -/
def mineStep (clock : Nat → Nat) (k : Nat) (b : Block) : Block :=
  if b.header.nonce = 4294967295 then
    { b with header := { b.header with timestamp := clock k, nonce := 0 } }
  else
    { b with header := { b.header with nonce := b.header.nonce + 1 } }

/-- The candidate inspected at iteration `k` of `mine_block`'s search,
starting from candidate `b0` (iteration 0). -/
def candidateAt (clock : Nat → Nat) (b0 : Block) : Nat → Block
  | 0 => b0
  | k + 1 => mineStep clock (k + 1) (candidateAt clock b0 k)

/-- The `loop` of `Miner::mine_block` (src/main.rs:338-368): test the
current candidate, return it on success, else step nonce/timestamp.
`fuel` bounds the number of iterations; `none` models non-termination
within the bound.  `k` counts iterations for the clock. -/
def Miner.mineLoop (m : Miner) (clock : Nat → Nat) : Nat → Nat → Block → Option Block
  | 0, _, _ => none
  | fuel + 1, k, b =>
      if m.meets_difficulty_target b.hash then some b
      else Miner.mineLoop m clock fuel (k + 1) (mineStep clock (k + 1) b)

/-- `Miner::mine_block` (src/main.rs:314-369): build the candidate with
nonce 0 and the current time, then search. -/
def Miner.mine_block (m : Miner) (version : Nat) (previous_hash : List Nat)
    (transactions : List Transaction) (height : Nat)
    (fuel : Nat) (clock : Nat → Nat) : Option Block :=
  Miner.mineLoop m clock fuel 0
    (Block.new version previous_hash transactions m.difficulty_target height (clock 0))

/-- `Miner::adjust_difficulty` (src/main.rs:396-411).  The f64
comparisons `actual / target > 2.0` and `actual / target < 0.5` are
rendered as the exact integer comparisons `2 * target < actual` and
`2 * actual < target`, which agree with the float semantics on all
inputs the spec discusses (and on `target = 0`, where the quotient is
`inf` or NaN). -/
def Miner.adjust_difficulty (m : Miner) (actual_time target_time : Nat) : Miner :=
  if 2 * target_time < actual_time then
    if 1 < m.difficulty_target then { difficulty_target := m.difficulty_target - 1 } else m
  else if 2 * actual_time < target_time then
    { difficulty_target := m.difficulty_target + 1 }
  else m

/-! ## Blockchain -/

/-- `Blockchain` (src/main.rs:183-187). -/
structure Blockchain where
  blocks : List Block
  pending_transactions : List Transaction
  miner : Miner
deriving DecidableEq

/-- `genesis_block` (src/main.rs:431-440): height 0, all-zero previous
hash, one fixed funding transaction, difficulty target 8 — built by
`Block::new`, not mined. -/
def genesis_block (now : Nat) : Block :=
  Block.new 1 (List.replicate 32 0)
    [{ id := "genesis", inputs := [],
       outputs := ["1A1zP1eP5QGefi2DMPTfTL5SLmv7DivfNa"], amount := 5000000000 }]
    8 0 now

/-- `Blockchain::new` (src/main.rs:190-202). -/
def Blockchain.new (difficulty : Nat) (now : Nat) : Blockchain :=
  { blocks := [genesis_block now], pending_transactions := [], miner := Miner.new difficulty }

/-- `Blockchain::add_transaction` (src/main.rs:204-210): push onto the
pending queue. -/
def Blockchain.add_transaction (bc : Blockchain) (t : Transaction) : Blockchain :=
  { bc with pending_transactions := bc.pending_transactions ++ [t] }

/-- `Blockchain::mine_pending_transactions` (src/main.rs:212-237):
empty queue succeeds with no effect; otherwise drain the queue into one
block at height = chain length, mine it, and append it. -/
def Blockchain.mine_pending_transactions (bc : Blockchain)
    (fuel : Nat) (clock : Nat → Nat) : Option Blockchain :=
  if bc.pending_transactions.isEmpty then some bc
  else
    match bc.blocks.getLast? with
    | none => none
    | some prev =>
        match bc.miner.mine_block 1 prev.hash bc.pending_transactions bc.blocks.length
            fuel clock with
        | none => none
        | some nb => some { bc with blocks := bc.blocks ++ [nb], pending_transactions := [] }

/-- The walk of `Blockchain::validate_chain`'s loop (src/main.rs:244-262)
over the blocks after the first, carrying the predecessor. -/
def validateFrom (m : Miner) : Block → List Block → Bool
  | _, [] => true
  | prev, b :: rest =>
      m.validate_block b && (b.header.previous_hash == prev.hash) && validateFrom m b rest

/-- `Blockchain::validate_chain` (src/main.rs:243-266): for each index
`i ≥ 1`, the block must validate and link to its predecessor's digest. -/
def Blockchain.validate_chain (bc : Blockchain) : Bool :=
  match bc.blocks with
  | [] => true
  | g :: rest => validateFrom bc.miner g rest

/-- `Blockchain::get_balance` (src/main.rs:283-300): over every
transaction of every block, add the amount when the address is among the
outputs, then subtract it (u64 `saturating_sub`, i.e. Nat truncated
subtraction) when it is among the inputs. -/
def Blockchain.get_balance (bc : Blockchain) (address : String) : Nat :=
  bc.blocks.foldl
    (fun bal b =>
      b.transactions.foldl
        (fun bal t =>
          let bal1 := if t.outputs.contains address then bal + t.amount else bal
          if t.inputs.contains address then bal1 - t.amount else bal1)
        bal)
    0

/-! ## Spec-side definitions

These follow the specification's words, to be compared with the
source-derived functions above. -/

/-- Length of one pairing level (the last element of an odd level is
duplicated, so a level of `n ≥ 1` digests shrinks to `⌈n / 2⌉`). -/
def merkleStep_len : (l : List (List Nat)) → (merkleStep l).length = (l.length + 1) / 2
  | [] => rfl
  | [_] => by simp [merkleStep]
  | _ :: _ :: rest => by
      simp only [merkleStep, List.length_cons, merkleStep_len rest]
      omega

/-- Modelled from the spec: start from the leaves and repeatedly replace
pairs `(L, R)` with `digest(L‖R)`, pairing a trailing odd element with
itself, until one digest remains; the empty list gives the all-zero
digest. -/
def merkleRootSpec : List (List Nat) → List Nat
  | [] => List.replicate 32 0
  | [h] => h
  | a :: b :: rest => merkleRootSpec (merkleStep (a :: b :: rest))
termination_by l => l.length
decreasing_by
  rw [merkleStep_len]
  simp only [List.length_cons]
  omega

/-- Modelled from the spec: one balance update over the integers — add
the amount when the address is among the outputs, then subtract it with
saturation at zero when it is among the inputs. -/
def balanceStepSpec (address : String) (bal : Int) (t : Transaction) : Int :=
  let bal1 := if address ∈ t.outputs then bal + t.amount else bal
  if address ∈ t.inputs then max (bal1 - t.amount) 0 else bal1

/-- Modelled from the spec: accumulate `balanceStepSpec` over every
transaction of every block, in chain order, starting from 0. -/
def balanceSpec (bc : Blockchain) (address : String) : Int :=
  bc.blocks.foldl (fun bal b => b.transactions.foldl (balanceStepSpec address) bal) 0

/-- The reachable `Blockchain` states: `new` under any wall-clock value,
then any sequence of `add_transaction` and successful
`mine_pending_transactions` calls (any fuel, any clock). -/
inductive Reachable : Blockchain → Prop
  | new (difficulty now : Nat) : Reachable (Blockchain.new difficulty now)
  | add (bc : Blockchain) (t : Transaction) : Reachable bc → Reachable (bc.add_transaction t)
  | mine (bc bc2 : Blockchain) (fuel : Nat) (clock : Nat → Nat) :
      Reachable bc → bc.mine_pending_transactions fuel clock = some bc2 → Reachable bc2

/-- Heights are consecutive starting from `n`. -/
def heightsFrom : Nat → List Block → Prop
  | _, [] => True
  | n, b :: rest => b.height = n ∧ heightsFrom (n + 1) rest

/-- The last block of `p :: l`. -/
def lastBlock : Block → List Block → Block
  | p, [] => p
  | _, b :: rest => lastBlock b rest

/-- Each block's `previous_hash` is the digest of its predecessor,
starting from predecessor `p`. -/
def linkedFrom : Block → List Block → Prop
  | _, [] => True
  | p, b :: rest => b.header.previous_hash = p.hash ∧ linkedFrom b rest

/-- Each block's header digest meets its own difficulty target. -/
def minedFrom : List Block → Prop
  | [] => True
  | b :: rest =>
      b.header.difficulty_target ≤ Miner.count_leading_zero_bits b.hash ∧ minedFrom rest

/-- The chain invariant in recursive form: a genesis head of height 0
with all-zero previous hash, consecutive heights after it, full linkage,
and every non-genesis block mined to its own difficulty target. -/
def chainInv (bc : Blockchain) : Prop :=
  ∃ g rest, bc.blocks = g :: rest ∧ g.height = 0 ∧
    g.header.previous_hash = List.replicate 32 0 ∧
    heightsFrom 1 rest ∧ linkedFrom g rest ∧ minedFrom rest

/-! ## Concrete inputs used by witnesses -/

/-- A small concrete transaction. -/
def txW : Transaction := { id := "t", inputs := [], outputs := ["a"], amount := 5 }

/-- A difficulty-0 chain with one pending transaction. -/
def bcW : Blockchain := (Blockchain.new 0 0).add_transaction txW

/-- A concrete clock. -/
def clkW : Nat → Nat := fun _ => 7

/-- The block difficulty-0 mining appends to `bcW`. -/
def nbW : Block := Block.new 1 (genesis_block 0).hash [txW] 0 1 7

/-- The chain state after mining `bcW`'s pending queue. -/
def bcW2 : Blockchain := { bcW with blocks := bcW.blocks ++ [nbW], pending_transactions := [] }

/-! ## Helper lemmas -/

/-- The fueled level loop computes the spec's repeat-until-one-remains
recursion, as soon as the fuel is at least the number of leaves. -/
theorem merkleLoop_eq_spec :
    ∀ (n : Nat) (hs : List (List Nat)), hs ≠ [] → hs.length ≤ n →
      merkleLoop n hs = [merkleRootSpec hs] := by
  intro n
  induction n with
  | zero =>
    intro hs hne hlen
    cases hs with
    | nil => exact absurd rfl hne
    | cons a tail => simp at hlen
  | succ n ih =>
    intro hs hne hlen
    cases hs with
    | nil => exact absurd rfl hne
    | cons a tail =>
      cases tail with
      | nil => simp [merkleLoop, merkleRootSpec]
      | cons b rest =>
        have h2 : (merkleStep (a :: b :: rest)).length ≤ n := by
          rw [merkleStep_len]
          simp only [List.length_cons] at hlen ⊢
          omega
        have h1 : merkleStep (a :: b :: rest) ≠ [] := by simp [merkleStep]
        calc merkleLoop (n + 1) (a :: b :: rest)
            = merkleLoop n (merkleStep (a :: b :: rest)) := rfl
          _ = [merkleRootSpec (merkleStep (a :: b :: rest))] := ih _ h1 h2
          _ = [merkleRootSpec (a :: b :: rest)] := by
              conv_rhs => rw [merkleRootSpec]

/-- `mineStep` touches only the nonce and timestamp. -/
theorem mineStep_frame (clock : Nat → Nat) (k : Nat) (b : Block) :
    (mineStep clock k b).header.version = b.header.version ∧
    (mineStep clock k b).header.previous_hash = b.header.previous_hash ∧
    (mineStep clock k b).header.merkle_root = b.header.merkle_root ∧
    (mineStep clock k b).header.difficulty_target = b.header.difficulty_target ∧
    (mineStep clock k b).transactions = b.transactions ∧
    (mineStep clock k b).height = b.height := by
  unfold mineStep
  split <;> simp

/-- A successful search returns a block meeting the difficulty
predicate, with every field other than nonce and timestamp equal to the
initial candidate's. -/
theorem mineLoop_some (m : Miner) (clock : Nat → Nat) :
    ∀ (fuel k : Nat) (b r : Block), Miner.mineLoop m clock fuel k b = some r →
      m.meets_difficulty_target r.hash = true ∧
      r.header.version = b.header.version ∧
      r.header.previous_hash = b.header.previous_hash ∧
      r.header.merkle_root = b.header.merkle_root ∧
      r.header.difficulty_target = b.header.difficulty_target ∧
      r.transactions = b.transactions ∧
      r.height = b.height := by
  intro fuel
  induction fuel with
  | zero => intro k b r h; simp [Miner.mineLoop] at h
  | succ n ih =>
    intro k b r h
    rw [Miner.mineLoop] at h
    by_cases hm : m.meets_difficulty_target b.hash = true
    · rw [if_pos hm] at h
      injection h with h
      subst h
      exact ⟨hm, rfl, rfl, rfl, rfl, rfl, rfl⟩
    · rw [if_neg hm] at h
      obtain ⟨h1, h2, h3, h4, h5, h6, h7⟩ := ih (k + 1) (mineStep clock (k + 1) b) r h
      obtain ⟨f1, f2, f3, f4, f5, f6⟩ := mineStep_frame clock (k + 1) b
      exact ⟨h1, h2.trans f1, h3.trans f2, h4.trans f3, h5.trans f4, h6.trans f5, h7.trans f6⟩

/-- Starting from a nonce-0 candidate, the candidate at iteration `k`
carries nonce `k % 2^32` (ascending within an epoch, wrapping to 0 after
`u32::MAX`). -/
theorem candidateAt_nonce (clock : Nat → Nat) (b0 : Block) (h0 : b0.header.nonce = 0) :
    ∀ k, (candidateAt clock b0 k).header.nonce = k % 4294967296 := by
  intro k
  induction k with
  | zero => simpa [candidateAt] using h0
  | succ k ih =>
    rw [candidateAt, mineStep]
    by_cases hm : (candidateAt clock b0 k).header.nonce = 4294967295
    · rw [if_pos hm]
      rw [hm] at ih
      simp only []
      omega
    · rw [if_neg hm]
      simp only []
      rw [ih] at hm ⊢
      omega

/-- A successful run of the search loop, started at iteration `s` on the
`s`-th candidate, returns the first candidate at or after `s` meeting
the difficulty predicate. -/
theorem mineLoop_candidates (m : Miner) (clock : Nat → Nat) :
    ∀ (fuel s : Nat) (b0 r : Block),
      Miner.mineLoop m clock fuel s (candidateAt clock b0 s) = some r →
      ∃ k, k < fuel ∧ r = candidateAt clock b0 (s + k) ∧
        m.meets_difficulty_target r.hash = true ∧
        ∀ j, j < k → m.meets_difficulty_target (candidateAt clock b0 (s + j)).hash = false := by
  intro fuel
  induction fuel with
  | zero => intro s b0 r h; simp [Miner.mineLoop] at h
  | succ n ih =>
    intro s b0 r h
    rw [Miner.mineLoop] at h
    by_cases hm : m.meets_difficulty_target (candidateAt clock b0 s).hash = true
    · rw [if_pos hm] at h
      injection h with h
      subst h
      exact ⟨0, by omega, by simp, hm, by omega⟩
    · rw [if_neg hm] at h
      have h' : Miner.mineLoop m clock n (s + 1) (candidateAt clock b0 (s + 1)) = some r := by
        rw [candidateAt]; exact h
      obtain ⟨k, hk, hr, hmeets, hbefore⟩ := ih (s + 1) b0 r h'
      refine ⟨k + 1, by omega, ?_, hmeets, ?_⟩
      · rw [hr]
        congr 1
        omega
      · intro j hj
        cases j with
        | zero =>
          simp only [Nat.add_zero]
          simpa using hm
        | succ j =>
          have heq : s + (j + 1) = (s + 1) + j := by omega
          rw [heq]
          exact hbefore j (by omega)

/-- Appending one block to a consecutive-heights list. -/
theorem heightsFrom_append (b : Block) :
    ∀ (l : List Block) (n : Nat),
      heightsFrom n (l ++ [b]) ↔ (heightsFrom n l ∧ b.height = n + l.length) := by
  intro l
  induction l with
  | nil => intro n; simp [heightsFrom]
  | cons c l ih =>
    intro n
    have harith : n + 1 + l.length = n + (l.length + 1) := by omega
    simp [heightsFrom, ih (n + 1), harith, and_assoc]

/-- Indexed reading of `heightsFrom`. -/
theorem heightsFrom_get :
    ∀ (l : List Block) (n : Nat), heightsFrom n l →
      ∀ (i : Nat) (h : i < l.length), (l.get ⟨i, h⟩).height = n + i := by
  intro l
  induction l with
  | nil => intro n _ i h; simp at h
  | cons c l ih =>
    intro n hh i h
    cases i with
    | zero => simpa [List.get] using hh.1
    | succ i =>
      have := ih (n + 1) hh.2 i (by simpa using h)
      simpa [List.get, Nat.add_assoc, Nat.add_comm 1 i] using this

/-- Appending one block to a linked list of blocks. -/
theorem linkedFrom_append (b : Block) :
    ∀ (l : List Block) (p : Block),
      linkedFrom p (l ++ [b]) ↔
        (linkedFrom p l ∧ b.header.previous_hash = (lastBlock p l).hash) := by
  intro l
  induction l with
  | nil => intro p; simp [linkedFrom, lastBlock]
  | cons c l ih => intro p; simp [linkedFrom, lastBlock, ih c, and_assoc]

/-- Indexed reading of `linkedFrom` over a nonempty chain. -/
theorem linkedFrom_get :
    ∀ (l : List Block) (g : Block), linkedFrom g l →
      ∀ (i : Nat) (h2 : i + 1 < (g :: l).length),
        ((g :: l).get ⟨i + 1, h2⟩).header.previous_hash =
          ((g :: l).get ⟨i, Nat.lt_of_succ_lt h2⟩).hash := by
  intro l
  induction l with
  | nil => intro g _ i h2; simp at h2
  | cons b rest ih =>
    intro g hl i h2
    cases i with
    | zero => simpa [List.get] using hl.1
    | succ i =>
      have := ih b hl.2 i (by simpa using h2)
      simpa [List.get] using this

/-- Appending one block to a list of mined blocks. -/
theorem minedFrom_append (b : Block) :
    ∀ (l : List Block),
      minedFrom (l ++ [b]) ↔
        (minedFrom l ∧ b.header.difficulty_target ≤ Miner.count_leading_zero_bits b.hash) := by
  intro l
  induction l with
  | nil => simp [minedFrom]
  | cons c l ih => simp [minedFrom, ih, and_assoc]

/-- Indexed reading of `minedFrom`. -/
theorem minedFrom_get :
    ∀ (l : List Block), minedFrom l →
      ∀ (i : Nat) (h : i < l.length),
        (l.get ⟨i, h⟩).header.difficulty_target ≤
          Miner.count_leading_zero_bits (l.get ⟨i, h⟩).hash := by
  intro l
  induction l with
  | nil => intro _ i h; simp at h
  | cons c l ih =>
    intro hm i h
    cases i with
    | zero => simpa [List.get] using hm.1
    | succ i => simpa [List.get] using ih hm.2 i (by simpa using h)

/-- `getLast?` of a nonempty list is `lastBlock`. -/
theorem getLast?_eq_lastBlock :
    ∀ (l : List Block) (g : Block), (g :: l).getLast? = some (lastBlock g l) := by
  intro l
  induction l with
  | nil => intro g; rfl
  | cons b rest ih =>
    intro g
    rw [List.getLast?_cons_cons]
    exact ih b

/-- Field values of a freshly constructed block. -/
theorem Block.new_fields (v : Nat) (ph : List Nat) (txs : List Transaction) (d ht n : Nat) :
    (Block.new v ph txs d ht n).header.version = v ∧
    (Block.new v ph txs d ht n).header.previous_hash = ph ∧
    (Block.new v ph txs d ht n).header.merkle_root = Block.calculate_merkle_root txs ∧
    (Block.new v ph txs d ht n).header.timestamp = n ∧
    (Block.new v ph txs d ht n).header.difficulty_target = d ∧
    (Block.new v ph txs d ht n).header.nonce = 0 ∧
    (Block.new v ph txs d ht n).transactions = txs ∧
    (Block.new v ph txs d ht n).height = ht :=
  ⟨rfl, rfl, rfl, rfl, rfl, rfl, rfl, rfl⟩

/-- A fresh chain satisfies the invariant. -/
theorem chainInv_new (difficulty now : Nat) : chainInv (Blockchain.new difficulty now) :=
  ⟨genesis_block now, [], rfl, rfl, rfl, trivial, trivial, trivial⟩

/-- `add_transaction` does not touch the blocks. -/
theorem chainInv_add (bc : Blockchain) (t : Transaction) (h : chainInv bc) :
    chainInv (bc.add_transaction t) := h

/-- A successful `mine_pending_transactions` preserves the invariant:
the appended block has height equal to the old length, links to the old
last block, and meets its own difficulty target. -/
theorem chainInv_mine (bc bc2 : Blockchain) (fuel : Nat) (clock : Nat → Nat)
    (hinv : chainInv bc) (h : bc.mine_pending_transactions fuel clock = some bc2) :
    chainInv bc2 := by
  obtain ⟨g, rest, hblocks, hg0, hgprev, hheights, hlinked, hmined⟩ := hinv
  rw [Blockchain.mine_pending_transactions] at h
  by_cases hemp : bc.pending_transactions.isEmpty
  · rw [if_pos hemp] at h
    injection h with h
    subst h
    exact ⟨g, rest, hblocks, hg0, hgprev, hheights, hlinked, hmined⟩
  · rw [if_neg hemp] at h
    rw [hblocks, getLast?_eq_lastBlock] at h
    dsimp only at h
    cases hmine : bc.miner.mine_block 1 (lastBlock g rest).hash bc.pending_transactions
        (g :: rest).length fuel clock with
    | none => rw [hmine] at h; exact absurd h (by simp)
    | some nb =>
      rw [hmine] at h
      dsimp only at h
      injection h with h
      subst h
      obtain ⟨hmeets, hv, hp, hmr, hd, htx, hh⟩ :=
        mineLoop_some bc.miner clock fuel 0 _ nb hmine
      obtain ⟨f1, f2, f3, f4, f5, f6, f7, f8⟩ :=
        Block.new_fields 1 (lastBlock g rest).hash bc.pending_transactions
          bc.miner.difficulty_target (g :: rest).length (clock 0)
      refine ⟨g, rest ++ [nb], by simp, hg0, hgprev, ?_, ?_, ?_⟩
      · rw [heightsFrom_append]
        refine ⟨hheights, ?_⟩
        rw [hh, f8]
        simp only [List.length_cons]
        omega
      · rw [linkedFrom_append]
        exact ⟨hlinked, by rw [hp, f2]⟩
      · rw [minedFrom_append]
        refine ⟨hmined, ?_⟩
        rw [hd, f5]
        rw [Miner.meets_difficulty_target] at hmeets
        exact of_decide_eq_true hmeets

/-- Every reachable chain satisfies the invariant. -/
theorem chainInv_reachable (bc : Blockchain) (h : Reachable bc) : chainInv bc := by
  induction h with
  | new difficulty now => exact chainInv_new difficulty now
  | add bc t _ ih => exact chainInv_add bc t ih
  | mine bc bc2 fuel clock _ hm ih => exact chainInv_mine bc bc2 fuel clock ih hm

/-- The validation walk succeeds exactly when every block after the
first validates and links to its predecessor, index by index. -/
theorem validateFrom_iff (m : Miner) :
    ∀ (l : List Block) (g : Block),
      validateFrom m g l = true ↔
        ∀ (i : Nat) (h2 : i + 1 < (g :: l).length),
          m.validate_block ((g :: l).get ⟨i + 1, h2⟩) = true ∧
          ((g :: l).get ⟨i + 1, h2⟩).header.previous_hash =
            ((g :: l).get ⟨i, Nat.lt_of_succ_lt h2⟩).hash := by
  intro l
  induction l with
  | nil =>
    intro g
    constructor
    · intro _ i h2; simp at h2
    · intro _; rfl
  | cons b rest ih =>
    intro g
    rw [validateFrom, Bool.and_eq_true, Bool.and_eq_true, beq_iff_eq, ih b]
    constructor
    · rintro ⟨⟨hv, hl⟩, hrest⟩ i h2
      cases i with
      | zero => exact ⟨hv, hl⟩
      | succ i =>
        have := hrest i (by simpa using h2)
        simpa [List.get] using this
    · intro hall
      refine ⟨⟨(hall 0 (by simp)).1, (hall 0 (by simp)).2⟩, ?_⟩
      intro i h2
      have := hall (i + 1) (by simpa using h2)
      simpa [List.get] using this

/-- A failing suffix makes the whole validation walk fail. -/
theorem validateFrom_append_false (m : Miner) :
    ∀ (l1 : List Block) (start : Block) (tail : List Block),
      validateFrom m (lastBlock start l1) tail = false →
      validateFrom m start (l1 ++ tail) = false := by
  intro l1
  induction l1 with
  | nil => intro start tail h; exact h
  | cons c l1 ih =>
    intro start tail h
    rw [List.cons_append, validateFrom]
    rw [ih c tail h]
    simp

/-- A block whose `previous_hash` differs from its predecessor's digest
makes the walk fail, wherever the pair sits. -/
theorem validateFrom_two_false (m : Miner) (q p b : Block) (post : List Block)
    (h : b.header.previous_hash ≠ p.hash) :
    validateFrom m q (p :: b :: post) = false := by
  rw [validateFrom, validateFrom]
  have hb : (b.header.previous_hash == p.hash) = false := beq_eq_false_iff_ne.mpr h
  simp [hb]

/-- Same, when the bad block is the first walked one. -/
theorem validateFrom_head_false (m : Miner) (p b : Block) (post : List Block)
    (h : b.header.previous_hash ≠ p.hash) :
    validateFrom m p (b :: post) = false := by
  rw [validateFrom]
  have hb : (b.header.previous_hash == p.hash) = false := beq_eq_false_iff_ne.mpr h
  simp [hb]

/-- The element at the seam of an append. -/
theorem get_append_mid :
    ∀ (l1 : List Block) (x : Block) (l2 : List Block)
      (h : l1.length < (l1 ++ x :: l2).length),
      (l1 ++ x :: l2).get ⟨l1.length, h⟩ = x := by
  intro l1
  induction l1 with
  | nil => intro x l2 h; rfl
  | cons c l1 ih => intro x l2 h; simpa [List.get] using ih x l2 (by simpa using h)

/-- The inner transaction fold of `get_balance` agrees with the
integer-valued specification fold and never goes negative. -/
theorem balance_fold_int (address : String) :
    ∀ (txs : List Transaction) (bal : Nat),
      ((txs.foldl
          (fun bal t =>
            let bal1 := if t.outputs.contains address then bal + t.amount else bal
            if t.inputs.contains address then bal1 - t.amount else bal1)
          bal : Nat) : Int) =
        txs.foldl (balanceStepSpec address) (bal : Int) := by
  intro txs
  induction txs with
  | nil => intro bal; rfl
  | cons t rest ih =>
    intro bal
    simp only [List.foldl]
    have hstep :
        (((let bal1 := if t.outputs.contains address then bal + t.amount else bal
           if t.inputs.contains address then bal1 - t.amount else bal1) : Nat) : Int) =
          balanceStepSpec address (bal : Int) t := by
      by_cases ho : address ∈ t.outputs <;> by_cases hi : address ∈ t.inputs
      · have hco : t.outputs.contains address = true := List.elem_iff.mpr ho
        have hci : t.inputs.contains address = true := List.elem_iff.mpr hi
        simp only [balanceStepSpec, hco, hci, eq_self_iff_true, if_true, if_pos ho, if_pos hi]
        omega
      · have hco : t.outputs.contains address = true := List.elem_iff.mpr ho
        have hci : t.inputs.contains address = false := by
          simp only [← Bool.not_eq_true]
          exact fun hc => hi (List.elem_iff.mp hc)
        simp only [balanceStepSpec, hco, hci, eq_self_iff_true, Bool.false_eq_true, if_true,
          if_false, if_pos ho, if_neg hi]
        omega
      · have hco : t.outputs.contains address = false := by
          simp only [← Bool.not_eq_true]
          exact fun hc => ho (List.elem_iff.mp hc)
        have hci : t.inputs.contains address = true := List.elem_iff.mpr hi
        simp only [balanceStepSpec, hco, hci, eq_self_iff_true, Bool.false_eq_true, if_true,
          if_false, if_neg ho, if_pos hi]
        omega
      · have hco : t.outputs.contains address = false := by
          simp only [← Bool.not_eq_true]
          exact fun hc => ho (List.elem_iff.mp hc)
        have hci : t.inputs.contains address = false := by
          simp only [← Bool.not_eq_true]
          exact fun hc => hi (List.elem_iff.mp hc)
        simp only [balanceStepSpec, hco, hci, Bool.false_eq_true, if_false, if_neg ho, if_neg hi]
    rw [← hstep, ih]

/-- The block fold of `get_balance` agrees with the integer
specification fold. -/
theorem balance_blocks_int (address : String) :
    ∀ (bs : List Block) (bal : Nat),
      ((bs.foldl
          (fun bal b =>
            b.transactions.foldl
              (fun bal t =>
                let bal1 := if t.outputs.contains address then bal + t.amount else bal
                if t.inputs.contains address then bal1 - t.amount else bal1)
              bal)
          bal : Nat) : Int) =
        bs.foldl (fun bal b => b.transactions.foldl (balanceStepSpec address) bal) (bal : Int) := by
  intro bs
  induction bs with
  | nil => intro bal; rfl
  | cons b rest ih =>
    intro bal
    simp only [List.foldl]
    rw [ih, balance_fold_int]

/-- Balance helper: one integer-spec step preserves nonnegativity. -/
theorem balanceStep_nonneg (address : String) (b0 : Int) (t : Transaction) (h : 0 ≤ b0) :
    0 ≤ balanceStepSpec address b0 t := by
  unfold balanceStepSpec
  by_cases ho : address ∈ t.outputs <;> by_cases hi : address ∈ t.inputs <;>
    simp only [ho, hi, if_pos, if_neg, if_true, if_false] <;>
      first
        | exact le_max_right _ 0
        | positivity

/-- Balance helper: the integer-spec transaction fold preserves
nonnegativity. -/
theorem balance_fold_nonneg (address : String) :
    ∀ (txs : List Transaction) (b0 : Int), 0 ≤ b0 →
      0 ≤ txs.foldl (balanceStepSpec address) b0 := by
  intro txs
  induction txs with
  | nil => intro b0 h; exact h
  | cons t rest ih =>
    intro b0 h
    exact ih _ (balanceStep_nonneg address b0 t h)

/-! ## Claim theorems -/

/-- Claim C1 (amended): in every reachable `Blockchain` state, the block
at index `i` has height `i`; the chain starts with a genesis block of
height 0 and all-zero `previous_hash`; every non-genesis block's
`previous_hash` is the header digest of its predecessor; and every
non-genesis block's header digest has at least its own
`difficulty_target` leading zero bits.  (The original claim also
required this of the genesis block, which is constructed without mining;
see the counterexample.) -/
theorem chain_invariant (bc : Blockchain) (hre : Reachable bc) :
    (∀ (i : Nat) (h : i < bc.blocks.length), (bc.blocks.get ⟨i, h⟩).height = i) ∧
    (∃ g rest, bc.blocks = g :: rest ∧ g.height = 0 ∧
       g.header.previous_hash = List.replicate 32 0) ∧
    (∀ (i : Nat) (h2 : i + 1 < bc.blocks.length),
       (bc.blocks.get ⟨i + 1, h2⟩).header.previous_hash =
         (bc.blocks.get ⟨i, Nat.lt_of_succ_lt h2⟩).hash) ∧
    (∀ (i : Nat) (h2 : i + 1 < bc.blocks.length),
       (bc.blocks.get ⟨i + 1, h2⟩).header.difficulty_target ≤
         Miner.count_leading_zero_bits (bc.blocks.get ⟨i + 1, h2⟩).hash) := by
  obtain ⟨g, rest, hblocks, hg0, hgprev, hheights, hlinked, hmined⟩ := chainInv_reachable bc hre
  have key : ∀ (l : List Block), l = g :: rest →
      (∀ (i : Nat) (h : i < l.length), (l.get ⟨i, h⟩).height = i) ∧
      (∀ (i : Nat) (h2 : i + 1 < l.length),
         (l.get ⟨i + 1, h2⟩).header.previous_hash =
           (l.get ⟨i, Nat.lt_of_succ_lt h2⟩).hash) ∧
      (∀ (i : Nat) (h2 : i + 1 < l.length),
         (l.get ⟨i + 1, h2⟩).header.difficulty_target ≤
           Miner.count_leading_zero_bits (l.get ⟨i + 1, h2⟩).hash) := by
    rintro l rfl
    refine ⟨?_, linkedFrom_get rest g hlinked, ?_⟩
    · intro i h
      cases i with
      | zero => simpa [List.get] using hg0
      | succ i =>
        have hg := heightsFrom_get rest 1 hheights i (by simpa using h)
        simp only [List.get] at hg ⊢
        omega
    · intro i h2
      have hm := minedFrom_get rest hmined i (by simpa using h2)
      simpa [List.get] using hm
  obtain ⟨k1, k2, k3⟩ := key bc.blocks hblocks
  exact ⟨k1, ⟨g, rest, hblocks, hg0, hgprev⟩, k2, k3⟩

set_option maxRecDepth 1000000 in
set_option maxHeartbeats 4000000 in
/-- Claim C1 counterexample: the reachable state `Blockchain.new 8 0`
has the genesis block at index 0, whose header carries difficulty
target 8 but whose digest has only 6 leading zero bits — genesis is
constructed, never mined, so the claim's "including genesis" clause
fails. -/
theorem chain_invariant_counterexample :
    Reachable (Blockchain.new 8 0) ∧
    (Blockchain.new 8 0).blocks.head? = some (genesis_block 0) ∧
    Miner.count_leading_zero_bits (genesis_block 0).hash <
      (genesis_block 0).header.difficulty_target :=
  ⟨Reachable.new 8 0, rfl, by decide⟩

/-- Claim C1 witness: the amended invariant instantiated at the
reachable state `Blockchain.new 8 0` gives height 0 at index 0. -/
theorem chain_invariant_witness :
    ((Blockchain.new 8 0).blocks.get ⟨0, by decide⟩).height = 0 :=
  (chain_invariant (Blockchain.new 8 0) (Reachable.new 8 0)).1 0 (by decide)

/-- Claim C2: the first candidate of `mine_block`'s search has nonce 0;
the candidate at iteration `k` has nonce `k % 2^32` (strictly increasing
within an epoch); a candidate with nonce `u32::MAX` is followed by one
with nonce 0 and a freshly read timestamp; a successful search returns
the first satisfying candidate in this order; and with difficulty target
0 the call returns the very first candidate, whose nonce is 0. -/
theorem mine_block_search_order (m : Miner) (v : Nat) (ph : List Nat)
    (txs : List Transaction) (ht : Nat) (clock : Nat → Nat) :
    (candidateAt clock (Block.new v ph txs m.difficulty_target ht (clock 0)) 0).header.nonce
        = 0 ∧
    (∀ (b0 : Block) (k : Nat), b0.header.nonce = 0 →
       (candidateAt clock b0 k).header.nonce = k % 4294967296) ∧
    (∀ (b0 : Block) (k : Nat), (candidateAt clock b0 k).header.nonce = 4294967295 →
       (candidateAt clock b0 (k + 1)).header.nonce = 0 ∧
       (candidateAt clock b0 (k + 1)).header.timestamp = clock (k + 1)) ∧
    (∀ (fuel : Nat) (r : Block),
       m.mine_block v ph txs ht fuel clock = some r →
       ∃ k, k < fuel ∧
         r = candidateAt clock (Block.new v ph txs m.difficulty_target ht (clock 0)) k ∧
         m.meets_difficulty_target r.hash = true ∧
         ∀ j, j < k →
           m.meets_difficulty_target
             (candidateAt clock (Block.new v ph txs m.difficulty_target ht (clock 0)) j).hash
             = false) ∧
    (m.difficulty_target = 0 → ∀ (fuel : Nat), 1 ≤ fuel →
       m.mine_block v ph txs ht fuel clock =
         some (Block.new v ph txs m.difficulty_target ht (clock 0))) := by
  refine ⟨(Block.new_fields v ph txs m.difficulty_target ht (clock 0)).2.2.2.2.2.1,
    fun b0 k h0 => candidateAt_nonce clock b0 h0 k, ?_, ?_, ?_⟩
  · intro b0 k hmax
    rw [candidateAt, mineStep, if_pos hmax]
    exact ⟨rfl, rfl⟩
  · intro fuel r h
    have h' : Miner.mineLoop m clock fuel 0
        (candidateAt clock (Block.new v ph txs m.difficulty_target ht (clock 0)) 0) = some r := by
      rw [candidateAt]
      exact h
    obtain ⟨k, hk, hr, hmeets, hbefore⟩ := mineLoop_candidates m clock fuel 0 _ r h'
    rw [Nat.zero_add] at hr
    refine ⟨k, hk, hr, hmeets, ?_⟩
    intro j hj
    have hb := hbefore j hj
    rw [Nat.zero_add] at hb
    exact hb
  · intro h0 fuel hf
    cases fuel with
    | zero => omega
    | succ n =>
      have hm : m.meets_difficulty_target
          (Block.new v ph txs m.difficulty_target ht (clock 0)).hash = true := by
        rw [Miner.meets_difficulty_target, h0]
        exact decide_eq_true (Nat.zero_le _)
      rw [Miner.mine_block, Miner.mineLoop, if_pos hm]

/-- Claim C2 witness: at difficulty target 0 the search returns the
initial candidate immediately. -/
theorem mine_block_search_order_witness :
    Miner.mine_block (Miner.new 0) 1 (List.replicate 32 0) [] 0 1 clkW =
      some (Block.new 1 (List.replicate 32 0) [] 0 0 (clkW 0)) :=
  (mine_block_search_order (Miner.new 0) 1 (List.replicate 32 0) [] 0 clkW).2.2.2.2
    rfl 1 (by decide)

/-- Claim C3: the Merkle root of an empty transaction list is the
all-zero digest, of a singleton list is that transaction's own digest,
and in general `calculate_merkle_root` computes the spec's
repeat-pairing-until-one-remains reduction over the per-transaction
digests, duplicating the last element of an odd level. -/
theorem calculate_merkle_root_spec :
    Block.calculate_merkle_root [] = List.replicate 32 0 ∧
    (∀ t : Transaction, Block.calculate_merkle_root [t] = t.hash) ∧
    (∀ txs : List Transaction,
       Block.calculate_merkle_root txs = merkleRootSpec (txs.map Transaction.hash)) := by
  refine ⟨rfl, fun t => rfl, ?_⟩
  intro txs
  cases txs with
  | nil => simp [Block.calculate_merkle_root, merkleRootSpec]
  | cons t rest =>
    rw [Block.calculate_merkle_root]
    simp only [List.isEmpty_cons, Bool.false_eq_true, if_false]
    rw [merkleLoop_eq_spec ((t :: rest).map Transaction.hash).length
      ((t :: rest).map Transaction.hash) (by simp) (Nat.le_refl _)]
    rfl

/-- Claim C4: `count_leading_zero_bits` adds 8 for each leading all-zero
byte, adds the first non-zero byte's own leading-zero count (at most 7)
and inspects nothing after it; a digest beginning `0x00 0x00 0x80`
yields 16 and one beginning `0x80` yields 0. -/
theorem count_leading_zero_bits_spec :
    (∀ (pre : List Nat) (b : Nat) (post : List Nat),
       (∀ x ∈ pre, x = 0) → b ≠ 0 →
       Miner.count_leading_zero_bits (pre ++ b :: post) =
         8 * pre.length + u8LeadingZeros b) ∧
    (∀ b : Nat, b ≠ 0 → b ≤ 255 → u8LeadingZeros b ≤ 7) ∧
    Miner.count_leading_zero_bits ([0, 0, 128] ++ List.replicate 29 0) = 16 ∧
    Miner.count_leading_zero_bits (128 :: List.replicate 31 0) = 0 := by
  refine ⟨?_, ?_, by decide, by decide⟩
  · intro pre
    induction pre with
    | nil =>
      intro b post _ hb
      rw [List.nil_append, Miner.count_leading_zero_bits, if_neg hb]
      simp only [List.length_nil]
      omega
    | cons x pre ih =>
      intro b post hall hb
      have hx : x = 0 := hall x (by simp)
      subst hx
      rw [List.cons_append, Miner.count_leading_zero_bits, if_pos rfl]
      rw [ih b post (fun y hy => hall y (by simp [hy])) hb]
      simp only [List.length_cons]
      omega
  · intro b h1 h2
    unfold u8LeadingZeros
    repeat' split
    all_goals omega

/-- Claim C4 witness: one zero byte then the byte 1 gives
`8 * 1 + u8LeadingZeros 1`, and that per-byte count is at most 7. -/
theorem count_leading_zero_bits_spec_witness :
    Miner.count_leading_zero_bits ([0] ++ 1 :: []) = 8 * 1 + u8LeadingZeros 1 ∧
    u8LeadingZeros 1 ≤ 7 :=
  ⟨count_leading_zero_bits_spec.1 [0] 1 [] (by decide) (by decide),
   count_leading_zero_bits_spec.2.1 1 (by decide) (by decide)⟩

set_option maxRecDepth 1000000 in
set_option maxHeartbeats 4000000 in
/-- Claim C5: `BlockHeader.hash` is the double digest — SHA-256 of the
canonical header encoding, then SHA-256 of that 32-byte result — and
differs from the single-pass digest of the encoding (shown at a concrete
header). -/
theorem header_hash_double :
    (∀ h : BlockHeader, BlockHeader.hash h = sha256 (sha256 (encodeHeader h))) ∧
    BlockHeader.hash
        { version := 1, previous_hash := List.replicate 32 0,
          merkle_root := List.replicate 32 0, timestamp := 0,
          difficulty_target := 8, nonce := 0 } ≠
      sha256 (encodeHeader
        { version := 1, previous_hash := List.replicate 32 0,
          merkle_root := List.replicate 32 0, timestamp := 0,
          difficulty_target := 8, nonce := 0 }) :=
  ⟨fun _ => rfl, by decide⟩

/-- Claim C6 (amended): `adjust_difficulty` follows the exact
two-threshold step rule on `ratio = actual_time / target_time`: when the
ratio exceeds 2 it decrements the difficulty by 1 — but only when the
current difficulty exceeds 1, so the difficulty is never decremented
below 1 (a difficulty of 0 stays 0, which the original "result is never
below 1" wording excluded); when the ratio is below 0.5 it increments by
1, unbounded; otherwise it is unchanged.  `(10, 4)` decrements under the
same guard, `(1, 10)` increments, `(5, 5)` is a no-op. -/
theorem adjust_difficulty_spec (m : Miner) (a t : Nat) :
    (2 * t < a → 1 < m.difficulty_target →
       (m.adjust_difficulty a t).difficulty_target = m.difficulty_target - 1) ∧
    (2 * t < a → m.difficulty_target ≤ 1 →
       (m.adjust_difficulty a t).difficulty_target = m.difficulty_target) ∧
    (¬ 2 * t < a → 2 * a < t →
       (m.adjust_difficulty a t).difficulty_target = m.difficulty_target + 1) ∧
    (¬ 2 * t < a → ¬ 2 * a < t →
       (m.adjust_difficulty a t).difficulty_target = m.difficulty_target) ∧
    (1 ≤ m.difficulty_target → 1 ≤ (m.adjust_difficulty a t).difficulty_target) ∧
    ((m.adjust_difficulty 10 4).difficulty_target =
       if 1 < m.difficulty_target then m.difficulty_target - 1 else m.difficulty_target) ∧
    ((m.adjust_difficulty 1 10).difficulty_target = m.difficulty_target + 1) ∧
    ((m.adjust_difficulty 5 5).difficulty_target = m.difficulty_target) := by
  refine ⟨?_, ?_, ?_, ?_, ?_, ?_, ?_, ?_⟩
  · intro h1 h2
    rw [Miner.adjust_difficulty, if_pos h1, if_pos h2]
  · intro h1 h2
    rw [Miner.adjust_difficulty, if_pos h1, if_neg (by omega)]
  · intro h1 h2
    rw [Miner.adjust_difficulty, if_neg h1, if_pos h2]
  · intro h1 h2
    rw [Miner.adjust_difficulty, if_neg h1, if_neg h2]
  · intro h
    rw [Miner.adjust_difficulty]
    by_cases h1 : 2 * t < a
    · rw [if_pos h1]
      by_cases h2 : 1 < m.difficulty_target
      · rw [if_pos h2]
        show 1 ≤ m.difficulty_target - 1
        omega
      · rw [if_neg h2]
        exact h
    · rw [if_neg h1]
      by_cases h2 : 2 * a < t
      · rw [if_pos h2]
        show 1 ≤ m.difficulty_target + 1
        omega
      · rw [if_neg h2]
        exact h
  · rw [Miner.adjust_difficulty, if_pos (by omega : 2 * 4 < 10)]
    by_cases h2 : 1 < m.difficulty_target
    · rw [if_pos h2, if_pos h2]
    · rw [if_neg h2, if_neg h2]
  · rw [Miner.adjust_difficulty, if_neg (by omega), if_pos (by omega)]
  · rw [Miner.adjust_difficulty, if_neg (by omega), if_neg (by omega)]

/-- Claim C6 counterexample: from difficulty 0, with ratio 2.5 > 2, the
difficulty stays 0 — strictly below the floor of 1 the claim asserts for
the result. -/
theorem adjust_difficulty_counterexample :
    2 * 4 < 10 ∧ (Miner.adjust_difficulty (Miner.new 0) 10 4).difficulty_target < 1 := by
  decide

/-- Claim C6 witness: from difficulty 3 with ratio 2.5 the difficulty
drops to 2. -/
theorem adjust_difficulty_spec_witness :
    (Miner.adjust_difficulty (Miner.new 3) 10 4).difficulty_target = 3 - 1 :=
  (adjust_difficulty_spec (Miner.new 3) 10 4).1 (by decide) (by decide)

/-- Claim C7: `mine_pending_transactions` on an empty queue succeeds and
leaves the state unchanged; on a non-empty queue a successful call
appends exactly one block carrying the whole queue in insertion order,
with height equal to the prior chain length, and empties the queue — the
chain grows by exactly 1. -/
theorem mine_pending_transactions_spec (bc : Blockchain) (fuel : Nat) (clock : Nat → Nat) :
    (bc.pending_transactions = [] → bc.mine_pending_transactions fuel clock = some bc) ∧
    (∀ bc2 : Blockchain, bc.pending_transactions ≠ [] →
       bc.mine_pending_transactions fuel clock = some bc2 →
       bc2.blocks.length = bc.blocks.length + 1 ∧
       bc2.pending_transactions = [] ∧
       ∃ nb : Block, bc2.blocks = bc.blocks ++ [nb] ∧
         nb.transactions = bc.pending_transactions ∧
         nb.height = bc.blocks.length) := by
  constructor
  · intro h
    rw [Blockchain.mine_pending_transactions, if_pos (by rw [h]; rfl)]
  · intro bc2 hne h
    rw [Blockchain.mine_pending_transactions,
      if_neg (by simpa [List.isEmpty_iff] using hne)] at h
    cases hlast : bc.blocks.getLast? with
    | none =>
      rw [hlast] at h
      exact absurd h (by simp)
    | some prev =>
      rw [hlast] at h
      dsimp only at h
      cases hmine : bc.miner.mine_block 1 prev.hash bc.pending_transactions
          bc.blocks.length fuel clock with
      | none =>
        rw [hmine] at h
        exact absurd h (by simp)
      | some nb =>
        rw [hmine] at h
        dsimp only at h
        injection h with h
        subst h
        obtain ⟨hmeets, hv, hp, hmr, hd, htx, hh⟩ :=
          mineLoop_some bc.miner clock fuel 0 _ nb hmine
        obtain ⟨f1, f2, f3, f4, f5, f6, f7, f8⟩ :=
          Block.new_fields 1 prev.hash bc.pending_transactions
            bc.miner.difficulty_target bc.blocks.length (clock 0)
        exact ⟨by simp, rfl, nb, rfl, htx.trans f7, hh.trans f8⟩

set_option maxRecDepth 1000000 in
set_option maxHeartbeats 4000000 in
/-- Claim C7 witness: on the concrete difficulty-0 chain `bcW` with one
pending transaction, mining appends exactly the block `nbW` and empties
the queue; on a fresh chain with an empty queue the call is a no-op. -/
theorem mine_pending_transactions_spec_witness :
    bcW.pending_transactions ≠ [] ∧
    bcW.mine_pending_transactions 1 clkW = some bcW2 ∧
    bcW2.blocks.length = bcW.blocks.length + 1 ∧
    Blockchain.mine_pending_transactions (Blockchain.new 8 0) 1 clkW =
      some (Blockchain.new 8 0) := by
  have hne : bcW.pending_transactions ≠ [] := by decide
  have hmine : bcW.mine_pending_transactions 1 clkW = some bcW2 := by rfl
  exact ⟨hne, hmine,
    ((mine_pending_transactions_spec bcW 1 clkW).2 bcW2 hne hmine).1,
    (mine_pending_transactions_spec (Blockchain.new 8 0) 1 clkW).1 rfl⟩

/-- Claim C8: `validate_chain` is true exactly when every block after
the first both re-validates against the miner's difficulty predicate and
carries its predecessor's header digest as `previous_hash`; a chain of
just the genesis block validates, and corrupting any non-genesis block's
`previous_hash` (so that it no longer equals the predecessor's digest)
makes validation fail. -/
theorem validate_chain_spec (bc : Blockchain) :
    (bc.validate_chain = true ↔
       ∀ (i : Nat) (h2 : i + 1 < bc.blocks.length),
         bc.miner.validate_block (bc.blocks.get ⟨i + 1, h2⟩) = true ∧
         (bc.blocks.get ⟨i + 1, h2⟩).header.previous_hash =
           (bc.blocks.get ⟨i, Nat.lt_of_succ_lt h2⟩).hash) ∧
    (bc.blocks.length = 1 → bc.validate_chain = true) ∧
    (∀ (pre : List Block) (p b : Block) (post : List Block),
       bc.blocks = pre ++ p :: b :: post →
       b.header.previous_hash ≠ p.hash →
       bc.validate_chain = false) := by
  refine ⟨?_, ?_, ?_⟩
  · rw [Blockchain.validate_chain]
    generalize bc.blocks = l
    cases l with
    | nil =>
      constructor
      · intro _ i h2
        simp at h2
      · intro _
        rfl
    | cons g rest => exact validateFrom_iff bc.miner rest g
  · intro hlen
    obtain ⟨g, hg⟩ := List.length_eq_one.mp hlen
    rw [Blockchain.validate_chain, hg]
    rfl
  · intro pre p b post hb hbad
    rw [Blockchain.validate_chain, hb]
    cases pre with
    | nil => exact validateFrom_head_false bc.miner p b post hbad
    | cons c pre2 =>
      rw [List.cons_append]
      show validateFrom bc.miner c (pre2 ++ p :: b :: post) = false
      exact validateFrom_append_false bc.miner pre2 c (p :: b :: post)
        (validateFrom_two_false bc.miner (lastBlock c pre2) p b post hbad)

/-- Claim C8 witness: the fresh chain holding only the genesis block
validates. -/
theorem validate_chain_spec_witness :
    (Blockchain.new 8 0).validate_chain = true :=
  (validate_chain_spec (Blockchain.new 8 0)).2.1 (by decide)

/-- Claim C9: `get_balance` agrees with the integer-valued
specification fold — per transaction, in chain order, add the amount on
an output hit and subtract it with saturation at zero on an input hit —
and that integer value (as well as every intermediate running balance
started from a nonnegative value) is never negative. -/
theorem get_balance_spec_thm (bc : Blockchain) (address : String) :
    ((bc.get_balance address : Nat) : Int) = balanceSpec bc address ∧
    0 ≤ balanceSpec bc address ∧
    (∀ (b0 : Int) (t : Transaction), 0 ≤ b0 → 0 ≤ balanceStepSpec address b0 t) ∧
    (∀ (txs : List Transaction) (b0 : Int), 0 ≤ b0 →
       0 ≤ txs.foldl (balanceStepSpec address) b0) := by
  have heq : ((bc.get_balance address : Nat) : Int) = balanceSpec bc address :=
    balance_blocks_int address bc.blocks 0
  refine ⟨heq, ?_, balanceStep_nonneg address, balance_fold_nonneg address⟩
  rw [← heq]
  exact Int.natCast_nonneg _

/-- Claim C9 witness: one saturating step from 0 stays nonnegative, and
on the fresh chain the genesis output address owns the genesis amount. -/
theorem get_balance_spec_witness :
    0 ≤ balanceStepSpec ("a") 0 txW ∧
    (Blockchain.new 8 0).get_balance ("1A1zP1eP5QGefi2DMPTfTL5SLmv7DivfNa") = 5000000000 :=
  ⟨(get_balance_spec_thm (Blockchain.new 8 0) ("a")).2.2.1 0 txW (by decide), by decide⟩

/-- Claim C10: each search step rewrites only the nonce and timestamp,
and a block returned by `mine_block` keeps the initial candidate's
version, previous hash, Merkle root (computed once from the transaction
list at construction), difficulty target, transaction list, and
height. -/
theorem mine_block_frame (m : Miner) (v : Nat) (ph : List Nat) (txs : List Transaction)
    (ht fuel : Nat) (clock : Nat → Nat) (r : Block)
    (h : m.mine_block v ph txs ht fuel clock = some r) :
    (∀ (b : Block) (k : Nat),
       (mineStep clock k b).header.version = b.header.version ∧
       (mineStep clock k b).header.previous_hash = b.header.previous_hash ∧
       (mineStep clock k b).header.merkle_root = b.header.merkle_root ∧
       (mineStep clock k b).header.difficulty_target = b.header.difficulty_target ∧
       (mineStep clock k b).transactions = b.transactions ∧
       (mineStep clock k b).height = b.height) ∧
    r.header.version = v ∧
    r.header.previous_hash = ph ∧
    r.header.merkle_root = Block.calculate_merkle_root txs ∧
    r.header.difficulty_target = m.difficulty_target ∧
    r.transactions = txs ∧
    r.height = ht := by
  obtain ⟨_, hv, hp, hmr, hd, htx, hh⟩ := mineLoop_some m clock fuel 0 _ r h
  obtain ⟨f1, f2, f3, f4, f5, f6, f7, f8⟩ :=
    Block.new_fields v ph txs m.difficulty_target ht (clock 0)
  exact ⟨fun b k => mineStep_frame clock k b, hv.trans f1, hp.trans f2, hmr.trans f3,
    hd.trans f5, htx.trans f7, hh.trans f8⟩

set_option maxRecDepth 1000000 in
set_option maxHeartbeats 4000000 in
/-- Claim C10 witness: a concrete difficulty-0 search returns its
initial candidate, whose transaction list and height are the inputs
unchanged. -/
theorem mine_block_frame_witness :
    Miner.mine_block (Miner.new 0) 2 (List.replicate 32 0) [txW] 5 1 clkW =
      some (Block.new 2 (List.replicate 32 0) [txW] 0 5 (clkW 0)) ∧
    (Block.new 2 (List.replicate 32 0) [txW] 0 5 (clkW 0)).transactions = [txW] ∧
    (Block.new 2 (List.replicate 32 0) [txW] 0 5 (clkW 0)).height = 5 := by
  have hmine : Miner.mine_block (Miner.new 0) 2 (List.replicate 32 0) [txW] 5 1 clkW =
      some (Block.new 2 (List.replicate 32 0) [txW] 0 5 (clkW 0)) := by rfl
  have hframe := mine_block_frame (Miner.new 0) 2 (List.replicate 32 0) [txW] 5 1 clkW _ hmine
  exact ⟨hmine, hframe.2.2.2.2.2.1, hframe.2.2.2.2.2.2⟩

end BitcoinMiner
